import Mathlib

/-!
# Verification of the calc5 tokenizer and parser/evaluator

Shallow embedding of `src/calc5.cc`: the `Lexer` (fields `_text`, `_pos`,
`_current_char`; methods `advance`, `skip_whitespace`, `integer`,
`get_next_token`) and the `Interpreter` (field `_current_token`; methods
`eat`, `factor`, `term`, `expression`).  C++ `long` is modelled as `Int`
(the specification requires integer payloads to fit a signed machine word,
so no wraparound is observable on specified inputs), C++ exceptions are
modelled as `Except` results threaded together with the mutated object
state, and the recursive-descent procedures are modelled with an explicit
fuel bounding the recursion depth.

The second half of the file defines the specification side: grammar
derivation trees (`Expr`/`Term`/`Factor`), their standard left-to-right,
precedence-respecting evaluation with truncating division (`evalE`), and
whitespace-padded renderings of token sequences, against which the claims
about the code are stated and proved.
-/

namespace Calc5

/-- The NUL character `'\0'`, used by the lexer as its end-of-input sentinel. -/
def nulChar : Char := Char.ofNat 0

/-- C `isspace` in the default locale: space, `\t`, `\n`, `\v`, `\f`, `\r`. -/
def isspaceChar (c : Char) : Bool :=
  c = ' ' || c = '\t' || c = '\n' || c = Char.ofNat 11 || c = Char.ofNat 12 || c = '\r'

/-- C `isdigit`: the decimal digits `'0'`..`'9'`. -/
def isdigitChar (c : Char) : Bool :=
  '0' ≤ c && c ≤ '9'

/-- `enum class TOKENTYPE` from calc5.cc. -/
inductive TOKENTYPE where
  | ENDOFFILE
  | INTEGER
  | PLUS
  | MINUS
  | MUL
  | DIV
  | LPAREN
  | RPAREN
deriving DecidableEq

/-- `struct Token`: a token type together with its `long` value (the parsed
decimal value for `INTEGER`, the source character code for the others). -/
structure Token where
  type : TOKENTYPE
  value : Int
deriving DecidableEq

/-- The `Token(ENDOFFILE, '\0')` token returned at end of input. -/
def eofToken : Token := { type := .ENDOFFILE, value := 0 }

/-- The three kinds of `const char*` exceptions thrown by calc5.cc:
`"Error parsing input. Got: <char>"` from `Lexer::get_next_token` (it carries
the offending character and nothing else), `"Error parsing input. Wanted:
<TOKENTYPE>"` from `Interpreter::eat` (it carries the expected token type and
nothing else), and `"Division by zero"` from `Interpreter::term`. -/
inductive Err where
  | lexical (got : Char)
  | wanted (tokenType : TOKENTYPE)
  | divByZero
deriving DecidableEq

/-- `class Lexer`: the input text and the cursor `_pos`.  The cached field
`_current_char` always equals `_text[_pos]` (`'\0'` once the cursor is past
the end, which is also what `std::string::operator[]` returns at index
`size()`), so it is derived (`Lexer.cur`) rather than stored. -/
structure Lexer where
  text : List Char
  pos : Nat
deriving DecidableEq

/-- `_current_char`: the character at `_text[_pos]`, `'\0'` past the end. -/
def Lexer.cur (lx : Lexer) : Char := lx.text.getD lx.pos nulChar

/-- `Lexer::advance`: step `_pos` right; `_current_char` (derived) becomes
`'\0'` exactly when the new position is past the end. -/
def Lexer.advance (lx : Lexer) : Lexer := { lx with pos := lx.pos + 1 }

/-- The `Lexer` constructor: position 0, `_current_char = _text[0]`. -/
def Lexer.init (text : List Char) : Lexer := { text := text, pos := 0 }

/-- The loop of `Lexer::skip_whitespace`, with fuel.  Each iteration requires
`_current_char != '\0'`, hence a position strictly inside the text, so
`text.length - pos` iterations always suffice. -/
def skipWsFuel : Nat → Lexer → Lexer
  | 0, lx => lx
  | fuel + 1, lx =>
    if lx.cur != nulChar && isspaceChar lx.cur then skipWsFuel fuel lx.advance else lx

/-- `Lexer::skip_whitespace`: advance while the current character is
whitespace and not `'\0'`. -/
def Lexer.skip_whitespace (lx : Lexer) : Lexer :=
  skipWsFuel (lx.text.length - lx.pos) lx

/-- The loop of `Lexer::integer`, with fuel (as for `skipWsFuel`, the fuel is
never exhausted): accumulate the maximal run of digits, advancing past each. -/
def integerFuel : Nat → Lexer → List Char → List Char × Lexer
  | 0, lx, acc => (acc, lx)
  | fuel + 1, lx, acc =>
    if lx.cur != nulChar && isdigitChar lx.cur then
      integerFuel fuel lx.advance (acc ++ [lx.cur])
    else (acc, lx)

/-- `std::stol` on the digit strings produced by `Lexer::integer`: the base-10
value of the digit run.  (`Lexer::integer` is only called on a nonempty digit
run, so the out-of-range and empty-string behaviour of `stol` is never
reached.) -/
def stol (ds : List Char) : Int :=
  Int.ofNat (ds.foldl (fun a c => 10 * a + (c.toNat - 48)) 0)

/-- `Lexer::integer`: consume a (multidigit) integer from the input. -/
def Lexer.integer (lx : Lexer) : Int × Lexer :=
  let r := integerFuel (lx.text.length - lx.pos) lx []
  (stol r.fst, r.snd)

/-- The whitespace branch of the `while` loop in `Lexer::get_next_token`:
if the current character is whitespace (and not `'\0'`), run
`skip_whitespace`; otherwise do nothing. -/
def Lexer.skipIfWs (lx : Lexer) : Lexer :=
  if lx.cur != nulChar && isspaceChar lx.cur then lx.skip_whitespace else lx

/-- `Lexer::get_next_token`.  The C++ `while (_current_char != '\0')` loop
re-tests its condition after the whitespace branch runs `skip_whitespace`;
since `skip_whitespace` always stops on a non-whitespace character, that
branch fires at most once and the loop is equivalent to this straight-line
code: skip leading whitespace, then emit `ENDOFFILE` on `'\0'`, an `INTEGER`
token on a digit, a single-character token on one of `* / + - ( )`, and
otherwise fail with the lexical error carrying the offending character,
without advancing. -/
def Lexer.get_next_token (lx : Lexer) : Except Err Token × Lexer :=
  let lx1 := lx.skipIfWs
  if lx1.cur = nulChar then
    (.ok eofToken, lx1)
  else if isdigitChar lx1.cur then
    let r := lx1.integer
    (.ok { type := .INTEGER, value := r.fst }, r.snd)
  else if lx1.cur = '*' then (.ok { type := .MUL, value := Int.ofNat '*'.toNat }, lx1.advance)
  else if lx1.cur = '/' then (.ok { type := .DIV, value := Int.ofNat '/'.toNat }, lx1.advance)
  else if lx1.cur = '+' then (.ok { type := .PLUS, value := Int.ofNat '+'.toNat }, lx1.advance)
  else if lx1.cur = '-' then (.ok { type := .MINUS, value := Int.ofNat '-'.toNat }, lx1.advance)
  else if lx1.cur = '(' then (.ok { type := .LPAREN, value := Int.ofNat '('.toNat }, lx1.advance)
  else if lx1.cur = ')' then (.ok { type := .RPAREN, value := Int.ofNat ')'.toNat }, lx1.advance)
  else (.error (.lexical lx1.cur), lx1)

/-- `class Interpreter`: a lexer plus the single lookahead `_current_token`. -/
structure Interpreter where
  lexer : Lexer
  current_token : Token
deriving DecidableEq

/-- `Interpreter::eat`: on a lookahead of the expected type, pull the next
token from the lexer into the lookahead slot; otherwise fail with the error
naming the expected type, leaving the state unchanged.  (A lexical failure of
the pull is propagated, with the lexer left where `get_next_token` left it.) -/
def Interpreter.eat (s : Interpreter) (token_type : TOKENTYPE) :
    Except Err Unit × Interpreter :=
  if s.current_token.type = token_type then
    match s.lexer.get_next_token with
    | (.ok t, lx) => (.ok (), { lexer := lx, current_token := t })
    | (.error e, lx) => (.error e, { lexer := lx, current_token := s.current_token })
  else
    (.error (.wanted token_type), s)

/-- The grammar procedures of `Interpreter` (`expression`, `term`, `factor`)
together with the while-loops inside `expression` and `term` (which carry the
running `result` as an accumulator), named so that the mutually recursive
interpreter `runRule` can recurse structurally on its fuel. -/
inductive Rule where
  | factor
  | termLoop (result : Int)
  | term
  | exprLoop (result : Int)
  | expr

/-- Exception propagation past a consume step: if `eat` threw, the rest of the
procedure is skipped and the error is the outcome (C++ stack unwinding);
otherwise continue with the updated state. -/
def bindEat {α : Type} (x : Except Err Unit × α)
    (f : α → Option (Except Err Int × α)) : Option (Except Err Int × α) :=
  match x with
  | (.error e, s) => some (.error e, s)
  | (.ok _, s) => f s

/-- Exception propagation past a sub-procedure returning a value: pass fuel
exhaustion (`none`) and thrown errors through, otherwise continue with the
value and the updated state. -/
def bindVal {α : Type} (x : Option (Except Err Int × α))
    (f : Int → α → Option (Except Err Int × α)) : Option (Except Err Int × α) :=
  match x with
  | none => none
  | some (.error e, s) => some (.error e, s)
  | some (.ok v, s) => f v s

/-- The recursive-descent parser/evaluator of calc5.cc, one `Rule` branch per
C++ procedure or loop.  `none` means the fuel was exhausted; every actual run
in this file uses fuel exceeding any reachable recursion depth.
  * `.factor` is `long Interpreter::factor()`: either `INTEGER`, yielding the
    saved token's value, or `LPAREN expression RPAREN`;
  * `.term` is `long Interpreter::term()`: a factor followed by the `MUL`/`DIV`
    loop `.termLoop`, which folds left-to-right with `*` and (after the
    explicit zero-divisor check `throw("Division by zero")`) truncating `/`;
  * `.expr` is `long Interpreter::expression()`: a term followed by the
    `PLUS`/`MINUS` loop `.exprLoop`, folding left-to-right with `+` and `-`. -/
def runRule : Nat → Rule → Interpreter → Option (Except Err Int × Interpreter)
  | 0, _, _ => none
  | fuel + 1, .factor, s =>
    let token := s.current_token
    if token.type = .LPAREN then
      bindEat (s.eat .LPAREN) fun s1 =>
        bindVal (runRule fuel .expr s1) fun result s2 =>
          bindEat (s2.eat .RPAREN) fun s3 =>
            some (.ok result, s3)
    else
      bindEat (s.eat .INTEGER) fun s1 =>
        some (.ok token.value, s1)
  | fuel + 1, .term, s =>
    bindVal (runRule fuel .factor s) fun result s1 =>
      runRule fuel (.termLoop result) s1
  | fuel + 1, .termLoop result, s =>
    if s.current_token.type = .MUL then
      bindEat (s.eat .MUL) fun s1 =>
        bindVal (runRule fuel .factor s1) fun v s2 =>
          runRule fuel (.termLoop (result * v)) s2
    else if s.current_token.type = .DIV then
      bindEat (s.eat .DIV) fun s1 =>
        bindVal (runRule fuel .factor s1) fun rhs s2 =>
          if rhs = 0 then some (.error .divByZero, s2)
          else runRule fuel (.termLoop (Int.tdiv result rhs)) s2
    else some (.ok result, s)
  | fuel + 1, .expr, s =>
    bindVal (runRule fuel .term s) fun result s1 =>
      runRule fuel (.exprLoop result) s1
  | fuel + 1, .exprLoop result, s =>
    if s.current_token.type = .PLUS then
      bindEat (s.eat .PLUS) fun s1 =>
        bindVal (runRule fuel .term s1) fun v s2 =>
          runRule fuel (.exprLoop (result + v)) s2
    else if s.current_token.type = .MINUS then
      bindEat (s.eat .MINUS) fun s1 =>
        bindVal (runRule fuel .term s1) fun v s2 =>
          runRule fuel (.exprLoop (result - v)) s2
    else some (.ok result, s)

/-- Fuel used by `interpretChars` on a given input: far more than any
reachable recursion depth (proved for all well-formed inputs below).  It is a
function of the non-whitespace content only, so it is manifestly insensitive
to whitespace padding. -/
def fuelFor (text : List Char) : Nat :=
  4 * (text.filter (fun c => !isspaceChar c)).length + 16

/-- One evaluation of one input line, exactly as `main` runs it: construct
the `Lexer`, construct the `Interpreter` (which primes the lookahead by
pulling the first token), and call `expression`.  The outcome is the value
returned or the first error thrown; `none` (fuel exhaustion) never occurs on
well-formed inputs. -/
def interpretChars (text : List Char) : Option (Except Err Int) :=
  let lx := Lexer.init text
  match lx.get_next_token with
  | (.error e, _) => some (.error e)
  | (.ok t, lx1) =>
    match runRule (fuelFor text) .expr { lexer := lx1, current_token := t } with
    | none => none
    | some (r, _) => some r

/-- `interpretChars` on a `String` input line. -/
def interpret (s : String) : Option (Except Err Int) := interpretChars s.data

/-! ## Specification side: surface tokens, renderings, derivation trees -/

/-- Surface tokens: the abstract token alphabet of the grammar, with integer
literals carrying their non-negative value. -/
inductive STok where
  | int (n : Nat)
  | plus
  | minus
  | star
  | slash
  | lparen
  | rparen
deriving DecidableEq

/-- The `Token` the lexer produces for each surface token. -/
def STok.toToken : STok → Token
  | .int n => { type := .INTEGER, value := Int.ofNat n }
  | .plus => { type := .PLUS, value := Int.ofNat '+'.toNat }
  | .minus => { type := .MINUS, value := Int.ofNat '-'.toNat }
  | .star => { type := .MUL, value := Int.ofNat '*'.toNat }
  | .slash => { type := .DIV, value := Int.ofNat '/'.toNat }
  | .lparen => { type := .LPAREN, value := Int.ofNat '('.toNat }
  | .rparen => { type := .RPAREN, value := Int.ofNat ')'.toNat }

/-- The character for decimal digit `d`. -/
def digitChar (d : Nat) : Char := Char.ofNat (48 + d)

/-- Decimal digit characters of `n`, most significant first, with fuel (at
most `n` can be divided by 10 only `n` times, so fuel `n + 1` suffices). -/
def natDigitsFuel : Nat → Nat → List Char
  | 0, _ => []
  | fuel + 1, n =>
    if n < 10 then [digitChar n]
    else natDigitsFuel fuel (n / 10) ++ [digitChar (n % 10)]

/-- The standard decimal rendering of a natural number. -/
def natDigits (n : Nat) : List Char := natDigitsFuel (n + 1) n

/-- Concrete spelling of a surface token. -/
def STok.render : STok → List Char
  | .int n => natDigits n
  | .plus => ['+']
  | .minus => ['-']
  | .star => ['*']
  | .slash => ['/']
  | .lparen => ['(']
  | .rparen => [')']

/-- Interleave paddings between the spellings of a token sequence:
`pads[0] ++ toks[0] ++ pads[1] ++ toks[1] ++ ... ++ pads[n]`.  Missing
paddings default to empty. -/
def renderToks : List STok → List (List Char) → List Char
  | [], pads => pads.headD []
  | t :: ts, pads => pads.headD [] ++ t.render ++ renderToks ts pads.tail

/-- A padding made of whitespace characters only. -/
def wsOnly (p : List Char) : Bool := p.all isspaceChar

/-- Every padding in the list is whitespace-only. -/
def padsOk (pads : List (List Char)) : Bool := pads.all wsOnly

/-- The padding between two consecutive integer tokens must be nonempty,
otherwise their spellings would merge into a single longer literal. -/
def noMerge : List STok → List (List Char) → Bool
  | .int _ :: .int m :: ts, pads =>
    !(pads.tail.headD []).isEmpty && noMerge (.int m :: ts) pads.tail
  | _ :: ts, pads => noMerge ts pads.tail
  | [], _ => true

/-- The additive operators of the grammar. -/
inductive AddOp where
  | plus
  | minus
deriving DecidableEq

/-- The multiplicative operators of the grammar. -/
inductive MulOp where
  | times
  | divide
deriving DecidableEq

mutual
/-- `factor := INTEGER | "(" expression ")"`. -/
inductive Factor where
  | num : Nat → Factor
  | paren : Expr → Factor
/-- `term := factor (("*" | "/") factor)*`: a head factor plus the trailing
operator-factor pairs. -/
inductive Term where
  | mk : Factor → TermRest → Term
/-- The `(("*" | "/") factor)*` part of a term. -/
inductive TermRest where
  | nil : TermRest
  | cons : MulOp → Factor → TermRest → TermRest
/-- `expression := term (("+" | "-") term)*`. -/
inductive Expr where
  | mk : Term → ExprRest → Expr
/-- The `(("+" | "-") term)*` part of an expression. -/
inductive ExprRest where
  | nil : ExprRest
  | cons : AddOp → Term → ExprRest → ExprRest
end

mutual
/-- Standard value of a factor: the literal's value, or the value of the
parenthesized expression. -/
def evalF : Factor → Except Err Int
  | .num n => .ok (Int.ofNat n)
  | .paren e => evalE e
/-- Standard left-to-right value of a term. -/
def evalT : Term → Except Err Int
  | .mk f r =>
    match evalF f with
    | .error e => .error e
    | .ok v => evalTR v r
/-- Left-to-right fold of `*` and truncating `/` over the trailing factors,
failing on a zero divisor. -/
def evalTR : Int → TermRest → Except Err Int
  | acc, .nil => .ok acc
  | acc, .cons op f r =>
    match evalF f with
    | .error e => .error e
    | .ok v =>
      match op with
      | .times => evalTR (acc * v) r
      | .divide => if v = 0 then .error .divByZero else evalTR (Int.tdiv acc v) r
/-- Standard left-to-right, precedence-respecting value of an expression
under truncating integer division. -/
def evalE : Expr → Except Err Int
  | .mk t r =>
    match evalT t with
    | .error e => .error e
    | .ok v => evalER v r
/-- Left-to-right fold of `+` and `-` over the trailing terms. -/
def evalER : Int → ExprRest → Except Err Int
  | acc, .nil => .ok acc
  | acc, .cons op t r =>
    match evalT t with
    | .error e => .error e
    | .ok v =>
      match op with
      | .plus => evalER (acc + v) r
      | .minus => evalER (acc - v) r
end

/-- Surface token of a multiplicative operator. -/
def mulTok : MulOp → STok
  | .times => .star
  | .divide => .slash

/-- Surface token of an additive operator. -/
def addTok : AddOp → STok
  | .plus => .plus
  | .minus => .minus

mutual
/-- Token sequence of a factor. -/
def stoksF : Factor → List STok
  | .num n => [.int n]
  | .paren e => .lparen :: stoksE e ++ [.rparen]
/-- Token sequence of a term. -/
def stoksT : Term → List STok
  | .mk f r => stoksF f ++ stoksTR r
/-- Token sequence of the trailing part of a term. -/
def stoksTR : TermRest → List STok
  | .nil => []
  | .cons op f r => mulTok op :: stoksF f ++ stoksTR r
/-- Token sequence of an expression. -/
def stoksE : Expr → List STok
  | .mk t r => stoksT t ++ stoksER r
/-- Token sequence of the trailing part of an expression. -/
def stoksER : ExprRest → List STok
  | .nil => []
  | .cons op t r => addTok op :: stoksT t ++ stoksER r
end

mutual
/-- Fuel sufficient for `runRule .factor` on a rendering of `f`. -/
def needF : Factor → Nat
  | .num _ => 1
  | .paren e => needE e + 1
/-- Fuel sufficient for `runRule .term`. -/
def needT : Term → Nat
  | .mk f r => 1 + max (needF f) (needTR r)
/-- Fuel sufficient for `runRule (.termLoop _)`. -/
def needTR : TermRest → Nat
  | .nil => 1
  | .cons _ f r => 1 + max (needF f) (needTR r)
/-- Fuel sufficient for `runRule .expr`. -/
def needE : Expr → Nat
  | .mk t r => 1 + max (needT t) (needER r)
/-- Fuel sufficient for `runRule (.exprLoop _)`. -/
def needER : ExprRest → Nat
  | .nil => 1
  | .cons _ t r => 1 + max (needT t) (needER r)
end

/-! ## A staged reference parser over token lists

`runRuleS` is `runRule` with the fused lexer abstracted away: it reads
tokens from a list, a position past the end standing for an inexhaustible
supply of `ENDOFFILE` tokens.  The simulation theorem below shows the fused
interpreter computes exactly this function of its token stream. -/

/-- The current lookahead of a token list (`ENDOFFILE` past the end). -/
def peek (ts : List Token) : Token := ts.headD eofToken

/-- `Interpreter::eat` over a token list. -/
def eatS (token_type : TOKENTYPE) (ts : List Token) : Except Err Unit × List Token :=
  if (peek ts).type = token_type then (.ok (), ts.tail)
  else (.error (.wanted token_type), ts)

/-- The staged parser/evaluator: branch-for-branch the same as `runRule`,
reading from a token list. -/
def runRuleS : Nat → Rule → List Token → Option (Except Err Int × List Token)
  | 0, _, _ => none
  | fuel + 1, .factor, ts =>
    let token := peek ts
    if token.type = .LPAREN then
      bindEat (eatS .LPAREN ts) fun ts1 =>
        bindVal (runRuleS fuel .expr ts1) fun result ts2 =>
          bindEat (eatS .RPAREN ts2) fun ts3 =>
            some (.ok result, ts3)
    else
      bindEat (eatS .INTEGER ts) fun ts1 =>
        some (.ok token.value, ts1)
  | fuel + 1, .term, ts =>
    bindVal (runRuleS fuel .factor ts) fun result ts1 =>
      runRuleS fuel (.termLoop result) ts1
  | fuel + 1, .termLoop result, ts =>
    if (peek ts).type = .MUL then
      bindEat (eatS .MUL ts) fun ts1 =>
        bindVal (runRuleS fuel .factor ts1) fun v ts2 =>
          runRuleS fuel (.termLoop (result * v)) ts2
    else if (peek ts).type = .DIV then
      bindEat (eatS .DIV ts) fun ts1 =>
        bindVal (runRuleS fuel .factor ts1) fun rhs ts2 =>
          if rhs = 0 then some (.error .divByZero, ts2)
          else runRuleS fuel (.termLoop (Int.tdiv result rhs)) ts2
    else some (.ok result, ts)
  | fuel + 1, .expr, ts =>
    bindVal (runRuleS fuel .term ts) fun result ts1 =>
      runRuleS fuel (.exprLoop result) ts1
  | fuel + 1, .exprLoop result, ts =>
    if (peek ts).type = .PLUS then
      bindEat (eatS .PLUS ts) fun ts1 =>
        bindVal (runRuleS fuel .term ts1) fun v ts2 =>
          runRuleS fuel (.exprLoop (result + v)) ts2
    else if (peek ts).type = .MINUS then
      bindEat (eatS .MINUS ts) fun ts1 =>
        bindVal (runRuleS fuel .term ts1) fun v ts2 =>
          runRuleS fuel (.exprLoop (result - v)) ts2
    else some (.ok result, ts)

/-- The token the lexer will produce at the head of the token sequence
`stoks` (`ENDOFFILE` when the sequence is exhausted). -/
def peekS (stoks : List STok) : Token :=
  match stoks with
  | [] => eofToken
  | t :: _ => t.toToken

/-- The lexer is positioned at the start of a whitespace-padded rendering of
the token sequence `stoks` (some already-consumed prefix may precede it). -/
def LexAt (lx : Lexer) (stoks : List STok) : Prop :=
  ∃ pre pads, padsOk pads = true ∧ noMerge stoks pads = true ∧
    lx.text = pre ++ renderToks stoks pads ∧ lx.pos = pre.length

/-- The interpreter holds the first token of `stoks` as its lookahead
(`ENDOFFILE` if `stoks` is empty) with its lexer positioned at the rest. -/
def InterpAt (s : Interpreter) (stoks : List STok) : Prop :=
  match stoks with
  | [] => s.current_token = eofToken ∧ LexAt s.lexer []
  | t :: ts => s.current_token = t.toToken ∧ LexAt s.lexer ts

/-- The token sequence does not begin with a `*` or `/` token (so the `term`
loop stops in front of it). -/
def mulFree (stoks : List STok) : Bool :=
  match stoks with
  | .star :: _ => false
  | .slash :: _ => false
  | _ => true

/-- The token sequence begins with no operator token at all (so both loops
stop in front of it). -/
def opFree (stoks : List STok) : Bool :=
  match stoks with
  | .star :: _ => false
  | .slash :: _ => false
  | .plus :: _ => false
  | .minus :: _ => false
  | _ => true

/-- Correspondence between a fused-interpreter outcome and a staged-parser
outcome: both out of fuel, or equal results with the fused state again
positioned at the staged parser's remaining tokens. -/
def SimRes (x : Option (Except Err Int × Interpreter))
    (y : Option (Except Err Int × List Token)) : Prop :=
  match x, y with
  | none, none => True
  | some (r1, s1), some (r2, ts2) =>
    r1 = r2 ∧ ∃ L, ts2 = L.map STok.toToken ∧ InterpAt s1 L
  | _, _ => False

/-! ## Character and digit facts -/

theorem isspaceChar_toNat {c : Char} (h : isspaceChar c = true) :
    c.toNat = 32 ∨ c.toNat = 9 ∨ c.toNat = 10 ∨ c.toNat = 11 ∨ c.toNat = 12 ∨ c.toNat = 13 := by
  simp [isspaceChar] at h
  rcases h with ((((h | h) | h) | h) | h) | h <;> subst h <;> decide

theorem isdigitChar_toNat {c : Char} (h : isdigitChar c = true) :
    48 ≤ c.toNat ∧ c.toNat ≤ 57 := by
  simp [isdigitChar] at h
  exact ⟨h.1, h.2⟩

theorem not_isspace_of_isdigit {c : Char} (h : isdigitChar c = true) :
    isspaceChar c = false := by
  cases hs : isspaceChar c with
  | false => rfl
  | true =>
    have h1 := isdigitChar_toNat h
    have h2 := isspaceChar_toNat hs
    omega

theorem ne_nul_of_isdigit {c : Char} (h : isdigitChar c = true) : c ≠ nulChar := by
  intro hc
  subst hc
  exact absurd h (by decide)

theorem ne_nul_of_isspace {c : Char} (h : isspaceChar c = true) : c ≠ nulChar := by
  intro hc
  subst hc
  exact absurd h (by decide)

theorem toNat_digitChar {d : Nat} (h : d < 10) : (digitChar d).toNat = 48 + d := by
  have hv : (48 + d).isValidChar := Or.inl (by omega)
  simp [digitChar, Char.ofNat, Char.toNat, Char.ofNatAux, hv, UInt32.toNat,
    BitVec.toNat_ofNatLt]

theorem isdigit_digitChar {d : Nat} (h : d < 10) : isdigitChar (digitChar d) = true := by
  have ht := toNat_digitChar h
  have h1 : 48 ≤ (digitChar d).toNat ∧ (digitChar d).toNat ≤ 57 := by omega
  simp [isdigitChar]
  exact ⟨h1.1, h1.2⟩

theorem natDigitsFuel_spec :
    ∀ fuel n, n < fuel →
      natDigitsFuel fuel n ≠ [] ∧
      (∀ c ∈ natDigitsFuel fuel n, isdigitChar c = true) ∧
      ∀ a : Nat,
        (natDigitsFuel fuel n).foldl (fun x c => 10 * x + (c.toNat - 48)) a =
          a * 10 ^ (natDigitsFuel fuel n).length + n := by
  intro fuel
  induction fuel with
  | zero => intro n h; exact absurd h (by omega)
  | succ fuel ih =>
    intro n h
    by_cases h10 : n < 10
    · refine ⟨by simp [natDigitsFuel, h10], ?_, ?_⟩
      · intro c hc
        simp [natDigitsFuel, h10] at hc
        subst hc
        exact isdigit_digitChar h10
      · intro a
        simp [natDigitsFuel, h10, List.foldl]
        rw [toNat_digitChar h10]
        omega
    · have hdiv : n / 10 < fuel := by omega
      have hrec := ih (n / 10) hdiv
      refine ⟨by simp [natDigitsFuel, h10], ?_, ?_⟩
      · intro c hc
        simp [natDigitsFuel, h10] at hc
        rcases hc with hc | hc
        · exact hrec.2.1 c hc
        · subst hc
          exact isdigit_digitChar (Nat.mod_lt _ (by omega))
      · intro a
        simp only [natDigitsFuel, if_neg h10]
        rw [List.foldl_append, hrec.2.2 a]
        simp only [List.foldl_cons, List.foldl_nil, List.length_append,
          List.length_cons, List.length_nil]
        rw [toNat_digitChar (Nat.mod_lt _ (by omega))]
        rw [pow_succ, ← mul_assoc]
        generalize a * 10 ^ (natDigitsFuel fuel (n / 10)).length = k
        omega

theorem natDigits_ne_nil (n : Nat) : natDigits n ≠ [] :=
  (natDigitsFuel_spec (n + 1) n (by omega)).1

theorem natDigits_all_digit (n : Nat) : ∀ c ∈ natDigits n, isdigitChar c = true :=
  (natDigitsFuel_spec (n + 1) n (by omega)).2.1

theorem stol_natDigits (n : Nat) : stol (natDigits n) = Int.ofNat n := by
  have h := (natDigitsFuel_spec (n + 1) n (by omega)).2.2 0
  simp only [stol, natDigits]
  rw [h]
  simp

/-! ## Rendering facts -/

theorem render_ne_nil (t : STok) : t.render ≠ [] := by
  cases t <;> simp [STok.render, natDigits_ne_nil]

theorem render_all_not_ws (t : STok) : ∀ c ∈ t.render, isspaceChar c = false := by
  cases t with
  | int n =>
    intro c hc
    exact not_isspace_of_isdigit (natDigits_all_digit n c hc)
  | plus => intro c hc; simp [STok.render] at hc; subst hc; decide
  | minus => intro c hc; simp [STok.render] at hc; subst hc; decide
  | star => intro c hc; simp [STok.render] at hc; subst hc; decide
  | slash => intro c hc; simp [STok.render] at hc; subst hc; decide
  | lparen => intro c hc; simp [STok.render] at hc; subst hc; decide
  | rparen => intro c hc; simp [STok.render] at hc; subst hc; decide

theorem render_head_not_ws (t : STok) : isspaceChar (t.render.headD nulChar) = false := by
  cases hl : t.render with
  | nil => exact absurd hl (render_ne_nil t)
  | cons c cs =>
    have : c ∈ t.render := by rw [hl]; exact List.mem_cons_self c cs
    simpa using render_all_not_ws t c this

theorem render_head_not_digit {t : STok} (h : ∀ n, t ≠ .int n) :
    isdigitChar (t.render.headD nulChar) = false := by
  cases t with
  | int n => exact absurd rfl (h n)
  | plus => decide
  | minus => decide
  | star => decide
  | slash => decide
  | lparen => decide
  | rparen => decide

/-! ## List indexing helpers -/

theorem getD_append_right (pre l : List Char) (k : Nat) (d : Char) :
    (pre ++ l).getD (pre.length + k) d = l.getD k d := by
  induction pre with
  | nil => simp
  | cons c cs ih => simpa [Nat.succ_add] using ih

theorem getD_zero (l : List Char) (d : Char) : l.getD 0 d = l.headD d := by
  cases l <;> rfl

theorem cur_append (pre l : List Char) :
    (Lexer.mk (pre ++ l) pre.length).cur = l.headD nulChar := by
  show (pre ++ l).getD (pre.length + 0) nulChar = l.headD nulChar
  rw [getD_append_right, getD_zero]

/-! ## The whitespace-skipping and integer-consuming loops -/

theorem skipWsFuel_pad :
    ∀ (pad pre rest : List Char) (fuel : Nat), wsOnly pad = true →
      isspaceChar (rest.headD nulChar) = false → pad.length ≤ fuel →
      skipWsFuel fuel (Lexer.mk (pre ++ pad ++ rest) pre.length) =
        Lexer.mk (pre ++ pad ++ rest) (pre.length + pad.length) := by
  intro pad
  induction pad with
  | nil =>
    intro pre rest fuel _ hrest _
    have hcur : (Lexer.mk (pre ++ [] ++ rest) pre.length).cur = rest.headD nulChar := by
      simpa using cur_append pre rest
    cases fuel with
    | zero => simp [skipWsFuel]
    | succ fuel =>
      rw [skipWsFuel, if_neg (by rw [hcur, hrest]; simp)]
      simp
  | cons c cs ih =>
    intro pre rest fuel hpad hrest hfuel
    have hc : isspaceChar c = true := by
      have := List.all_eq_true.mp hpad c (List.mem_cons_self c cs)
      simpa using this
    have hcs : wsOnly cs = true := by
      apply List.all_eq_true.mpr
      intro x hx
      exact List.all_eq_true.mp hpad x (List.mem_cons_of_mem c hx)
    have hcur : (Lexer.mk (pre ++ (c :: cs) ++ rest) pre.length).cur = c := by
      have h0 : pre ++ (c :: cs) ++ rest = pre ++ (c :: (cs ++ rest)) := by simp
      rw [h0]
      simpa using cur_append pre (c :: (cs ++ rest))
    cases fuel with
    | zero => simp at hfuel
    | succ fuel =>
      have hcond : ((Lexer.mk (pre ++ (c :: cs) ++ rest) pre.length).cur != nulChar &&
          isspaceChar (Lexer.mk (pre ++ (c :: cs) ++ rest) pre.length).cur) = true := by
        rw [hcur]
        simp [hc, ne_nul_of_isspace hc]
      rw [skipWsFuel, if_pos hcond]
      have hadv : (Lexer.mk (pre ++ (c :: cs) ++ rest) pre.length).advance =
          Lexer.mk ((pre ++ [c]) ++ cs ++ rest) (pre ++ [c]).length := by
        simp [Lexer.advance]
      rw [hadv, ih (pre ++ [c]) rest fuel hcs hrest (by simpa using hfuel)]
      have h1 : pre ++ [c] ++ cs ++ rest = pre ++ c :: cs ++ rest := by simp
      have h2 : (pre ++ [c]).length + cs.length = pre.length + (c :: cs).length := by
        simp only [List.length_append, List.length_cons, List.length_nil]
        omega
      rw [h1, h2]

theorem skip_whitespace_pad (pad pre rest : List Char) (hpad : wsOnly pad = true)
    (hrest : isspaceChar (rest.headD nulChar) = false) :
    (Lexer.mk (pre ++ pad ++ rest) pre.length).skip_whitespace =
      Lexer.mk (pre ++ pad ++ rest) (pre.length + pad.length) := by
  apply skipWsFuel_pad pad pre rest _ hpad hrest
  simp [Lexer.skip_whitespace]

theorem integerFuel_run :
    ∀ (ds : List Char) (pre rest acc : List Char) (fuel : Nat),
      (∀ c ∈ ds, isdigitChar c = true) → isdigitChar (rest.headD nulChar) = false →
      ds.length ≤ fuel →
      integerFuel fuel (Lexer.mk (pre ++ ds ++ rest) pre.length) acc =
        (acc ++ ds, Lexer.mk (pre ++ ds ++ rest) (pre.length + ds.length)) := by
  intro ds
  induction ds with
  | nil =>
    intro pre rest acc fuel _ hrest _
    have hcur : (Lexer.mk (pre ++ [] ++ rest) pre.length).cur = rest.headD nulChar := by
      simpa using cur_append pre rest
    cases fuel with
    | zero => simp [integerFuel]
    | succ fuel =>
      rw [integerFuel, if_neg]
      · simp
      · rw [hcur, hrest]
        simp
  | cons d ds ih =>
    intro pre rest acc fuel hds hrest hfuel
    have hd : isdigitChar d = true := hds d (List.mem_cons_self d ds)
    have hds' : ∀ c ∈ ds, isdigitChar c = true :=
      fun c hc => hds c (List.mem_cons_of_mem d hc)
    have hcur : (Lexer.mk (pre ++ (d :: ds) ++ rest) pre.length).cur = d := by
      have : pre ++ (d :: ds) ++ rest = pre ++ (d :: (ds ++ rest)) := by simp
      rw [this]
      simpa using cur_append pre (d :: (ds ++ rest))
    cases fuel with
    | zero => simp at hfuel
    | succ fuel =>
      have hcond : ((Lexer.mk (pre ++ (d :: ds) ++ rest) pre.length).cur != nulChar &&
          isdigitChar (Lexer.mk (pre ++ (d :: ds) ++ rest) pre.length).cur) = true := by
        rw [hcur]
        simp [hd, ne_nul_of_isdigit hd]
      rw [integerFuel, if_pos hcond, hcur]
      have hadv : (Lexer.mk (pre ++ (d :: ds) ++ rest) pre.length).advance =
          Lexer.mk ((pre ++ [d]) ++ ds ++ rest) (pre ++ [d]).length := by
        simp [Lexer.advance]
      rw [hadv, ih (pre ++ [d]) rest (acc ++ [d]) fuel hds' hrest (by simpa using hfuel)]
      have h0 : acc ++ [d] ++ ds = acc ++ d :: ds := by simp
      have h1 : pre ++ [d] ++ ds ++ rest = pre ++ d :: ds ++ rest := by simp
      have h2 : (pre ++ [d]).length + ds.length = pre.length + (d :: ds).length := by
        simp only [List.length_append, List.length_cons, List.length_nil]
        omega
      rw [h0, h1, h2]

theorem integer_run (ds pre rest : List Char) (hds : ∀ c ∈ ds, isdigitChar c = true)
    (hrest : isdigitChar (rest.headD nulChar) = false) :
    (Lexer.mk (pre ++ ds ++ rest) pre.length).integer =
      (stol ds, Lexer.mk (pre ++ ds ++ rest) (pre.length + ds.length)) := by
  have h := integerFuel_run ds pre rest [] ((pre ++ ds ++ rest).length - pre.length)
    hds hrest (by simp)
  simp only [Lexer.integer]
  rw [h]
  simp

theorem getD_length_le (l : List Char) (n : Nat) (d : Char) (h : l.length ≤ n) :
    l.getD n d = d := by
  induction l generalizing n with
  | nil => simp
  | cons c cs ih =>
    cases n with
    | zero => simp at h
    | succ k =>
      simp only [List.getD_cons_succ]
      exact ih k (by simpa using h)

theorem headD_append_left {l l' : List Char} (h : l ≠ []) (d : Char) :
    (l ++ l').headD d = l.headD d := by
  cases l with
  | nil => exact absurd rfl h
  | cons c cs => rfl

/-! ## Single pulls of `get_next_token` at a padded rendering -/

theorem skipIfWs_pad (pad pre rest : List Char) (hpad : wsOnly pad = true)
    (hrest : isspaceChar (rest.headD nulChar) = false) :
    (Lexer.mk (pre ++ pad ++ rest) pre.length).skipIfWs =
      Lexer.mk (pre ++ pad ++ rest) (pre.length + pad.length) := by
  cases pad with
  | nil =>
    have hcur : (Lexer.mk (pre ++ [] ++ rest) pre.length).cur = rest.headD nulChar := by
      simpa using cur_append pre rest
    rw [Lexer.skipIfWs, if_neg (by rw [hcur, hrest]; simp)]
    simp
  | cons c cs =>
    have hc : isspaceChar c = true := by
      have := List.all_eq_true.mp hpad c (List.mem_cons_self c cs)
      simpa using this
    have hcur : (Lexer.mk (pre ++ (c :: cs) ++ rest) pre.length).cur = c := by
      have h0 : pre ++ (c :: cs) ++ rest = pre ++ (c :: (cs ++ rest)) := by simp
      rw [h0]
      simpa using cur_append pre (c :: (cs ++ rest))
    rw [Lexer.skipIfWs, if_pos (by rw [hcur]; simp [hc, ne_nul_of_isspace hc])]
    exact skip_whitespace_pad (c :: cs) pre rest hpad hrest

theorem gnt_token (t : STok) (pad pre rest : List Char) (hpad : wsOnly pad = true)
    (hrest : ∀ n, t = .int n → isdigitChar (rest.headD nulChar) = false) :
    (Lexer.mk (pre ++ pad ++ (t.render ++ rest)) pre.length).get_next_token =
      (.ok t.toToken,
        Lexer.mk (pre ++ pad ++ (t.render ++ rest))
          (pre.length + pad.length + t.render.length)) := by
  have hws : isspaceChar ((t.render ++ rest).headD nulChar) = false := by
    rw [headD_append_left (render_ne_nil t)]
    exact render_head_not_ws t
  have hskip := skipIfWs_pad pad pre (t.render ++ rest) hpad hws
  have hcur : (Lexer.mk (pre ++ pad ++ (t.render ++ rest)) (pre.length + pad.length)).cur
      = t.render.headD nulChar := by
    have h0 : pre ++ pad ++ (t.render ++ rest) = (pre ++ pad) ++ (t.render ++ rest) := by
      simp
    have h1 : pre.length + pad.length = (pre ++ pad).length := by simp
    rw [h0, h1, cur_append (pre ++ pad) (t.render ++ rest)]
    exact headD_append_left (render_ne_nil t) nulChar
  cases t with
  | int n =>
    simp only [STok.render] at hskip hcur ⊢
    have hdig : isdigitChar ((natDigits n).headD nulChar) = true := by
      cases hl : natDigits n with
      | nil => exact absurd hl (natDigits_ne_nil n)
      | cons c cs =>
        have hm : c ∈ natDigits n := by rw [hl]; exact List.mem_cons_self c cs
        simpa [hl] using natDigits_all_digit n c hm
    have hnul : ¬ ((natDigits n).headD nulChar = nulChar) := ne_nul_of_isdigit hdig
    have hint := integer_run (natDigits n) (pre ++ pad) rest (natDigits_all_digit n)
      (hrest n rfl)
    have hre : (pre ++ pad) ++ natDigits n ++ rest = pre ++ pad ++ (natDigits n ++ rest) := by
      simp
    have hlen : (pre ++ pad).length = pre.length + pad.length := by simp
    rw [hre, hlen] at hint
    simp only [Lexer.get_next_token]
    rw [hskip, hcur, if_neg hnul, if_pos hdig, hint]
    simp [STok.toToken, stol_natDigits]
  | plus =>
    simp only [Lexer.get_next_token]
    rw [hskip, hcur]
    simp +decide [STok.render, STok.toToken, Lexer.advance]
  | minus =>
    simp only [Lexer.get_next_token]
    rw [hskip, hcur]
    simp +decide [STok.render, STok.toToken, Lexer.advance]
  | star =>
    simp only [Lexer.get_next_token]
    rw [hskip, hcur]
    simp +decide [STok.render, STok.toToken, Lexer.advance]
  | slash =>
    simp only [Lexer.get_next_token]
    rw [hskip, hcur]
    simp +decide [STok.render, STok.toToken, Lexer.advance]
  | lparen =>
    simp only [Lexer.get_next_token]
    rw [hskip, hcur]
    simp +decide [STok.render, STok.toToken, Lexer.advance]
  | rparen =>
    simp only [Lexer.get_next_token]
    rw [hskip, hcur]
    simp +decide [STok.render, STok.toToken, Lexer.advance]

theorem gnt_eof (pad pre : List Char) (hpad : wsOnly pad = true) :
    (Lexer.mk (pre ++ pad) pre.length).get_next_token =
      (.ok eofToken, Lexer.mk (pre ++ pad) (pre.length + pad.length)) := by
  have hskip := skipIfWs_pad pad pre [] hpad (by decide)
  simp only [List.append_nil] at hskip
  have hcur : (Lexer.mk (pre ++ pad) (pre.length + pad.length)).cur = nulChar := by
    show (pre ++ pad).getD (pre.length + pad.length) nulChar = nulChar
    apply getD_length_le
    simp
  simp only [Lexer.get_next_token]
  rw [hskip, hcur, if_pos rfl]

/-! ## Pulling one token from a `LexAt` position -/

theorem not_isdigit_of_isspace {c : Char} (h : isspaceChar c = true) :
    isdigitChar c = false := by
  cases hd : isdigitChar c with
  | false => rfl
  | true => exact absurd (not_isspace_of_isdigit hd) (by simp [h])

theorem padsOk_headD {pads : List (List Char)} (h : padsOk pads = true) :
    wsOnly (pads.headD []) = true := by
  cases pads with
  | nil => rfl
  | cons p ps => exact List.all_eq_true.mp h p (List.mem_cons_self p ps)

theorem padsOk_tail {pads : List (List Char)} (h : padsOk pads = true) :
    padsOk pads.tail = true := by
  cases pads with
  | nil => rfl
  | cons p ps =>
    apply List.all_eq_true.mpr
    intro x hx
    exact List.all_eq_true.mp h x (List.mem_cons_of_mem p hx)

theorem noMerge_tail {t : STok} {ts : List STok} {pads : List (List Char)}
    (h : noMerge (t :: ts) pads = true) : noMerge ts pads.tail = true := by
  cases t with
  | int n =>
    cases ts with
    | nil => exact h
    | cons u ts' =>
      cases u with
      | int m => simp [noMerge] at h; exact h.2
      | plus => exact h
      | minus => exact h
      | star => exact h
      | slash => exact h
      | lparen => exact h
      | rparen => exact h
  | plus => exact h
  | minus => exact h
  | star => exact h
  | slash => exact h
  | lparen => exact h
  | rparen => exact h

theorem renderToks_head_not_digit (ts : List STok) (pads : List (List Char))
    (hpads : padsOk pads = true)
    (hhead : ∀ m tl, ts = STok.int m :: tl → pads.headD [] ≠ []) :
    isdigitChar ((renderToks ts pads).headD nulChar) = false := by
  cases ts with
  | nil =>
    simp only [renderToks]
    cases hp : pads.headD [] with
    | nil => decide
    | cons c cs =>
      have hc : isspaceChar c = true := by
        have hws := padsOk_headD hpads
        rw [hp] at hws
        simpa using List.all_eq_true.mp hws c (List.mem_cons_self c cs)
      simpa using not_isdigit_of_isspace hc
  | cons t ts' =>
    simp only [renderToks]
    cases hp : pads.headD [] with
    | cons c cs =>
      have hc : isspaceChar c = true := by
        have hws := padsOk_headD hpads
        rw [hp] at hws
        simpa using List.all_eq_true.mp hws c (List.mem_cons_self c cs)
      simpa using not_isdigit_of_isspace hc
    | nil =>
      simp only [List.nil_append]
      rw [headD_append_left (render_ne_nil t)]
      cases t with
      | int m => exact absurd hp (hhead m ts' rfl)
      | plus => decide
      | minus => decide
      | star => decide
      | slash => decide
      | lparen => decide
      | rparen => decide

theorem LexAt_pull {lx : Lexer} {L : List STok} (h : LexAt lx L) :
    ∃ lx2, lx.get_next_token = (.ok (peekS L), lx2) ∧ LexAt lx2 L.tail := by
  obtain ⟨pre, pads, hpads, hmerge, htext, hpos⟩ := h
  obtain ⟨text, pos⟩ := lx
  simp only at htext hpos
  subst htext hpos
  cases L with
  | nil =>
    have hgnt := gnt_eof (pads.headD []) pre (padsOk_headD hpads)
    have hT : renderToks ([] : List STok) pads = pads.headD [] := rfl
    rw [hT]
    refine ⟨_, hgnt, ?_⟩
    refine ⟨pre ++ pads.headD [], [], rfl, rfl, ?_, ?_⟩
    · simp [renderToks]
    · simp
  | cons t ts =>
    have hrest : ∀ n, t = STok.int n → isdigitChar
        ((renderToks ts pads.tail).headD nulChar) = false := by
      intro n hn
      subst hn
      apply renderToks_head_not_digit ts pads.tail (padsOk_tail hpads)
      intro m tl htl
      subst htl
      simp [noMerge] at hmerge
      simpa using hmerge.1
    have hgnt := gnt_token t (pads.headD []) pre (renderToks ts pads.tail)
      (padsOk_headD hpads) hrest
    have hT : pre ++ renderToks (t :: ts) pads =
        pre ++ pads.headD [] ++ (t.render ++ renderToks ts pads.tail) := by
      simp [renderToks]
    rw [hT]
    refine ⟨_, hgnt, ?_⟩
    refine ⟨pre ++ pads.headD [] ++ t.render, pads.tail, padsOk_tail hpads,
      noMerge_tail hmerge, ?_, ?_⟩
    · simp
    · simp
      omega

/-! ## The fused interpreter computes a function of its token stream -/

theorem InterpAt_current {s : Interpreter} {L : List STok} (h : InterpAt s L) :
    s.current_token = peekS L := by
  cases L with
  | nil => exact h.1
  | cons t ts => exact h.1

theorem InterpAt_lexAt {s : Interpreter} {L : List STok} (h : InterpAt s L) :
    LexAt s.lexer L.tail := by
  cases L with
  | nil => exact h.2
  | cons t ts => exact h.2

theorem InterpAt_intro (lx : Lexer) (L : List STok) (h : LexAt lx L.tail) :
    InterpAt ⟨lx, peekS L⟩ L := by
  cases L with
  | nil => exact ⟨rfl, h⟩
  | cons t ts => exact ⟨rfl, h⟩

theorem peek_map (L : List STok) : peek (L.map STok.toToken) = peekS L := by
  cases L <;> rfl

theorem tail_map (L : List STok) :
    (L.map STok.toToken).tail = L.tail.map STok.toToken := by
  cases L <;> rfl

theorem eat_ok {s : Interpreter} {L : List STok} (h : InterpAt s L) {X : TOKENTYPE}
    (hX : (peekS L).type = X) :
    s.eat X = (.ok (), ⟨(s.lexer.get_next_token).2, peekS L.tail⟩) ∧
      InterpAt ⟨(s.lexer.get_next_token).2, peekS L.tail⟩ L.tail := by
  obtain ⟨lx2, hpull, hat⟩ := LexAt_pull (InterpAt_lexAt h)
  constructor
  · rw [Interpreter.eat, if_pos (by rw [InterpAt_current h, hX]), hpull]
  · rw [hpull]
    exact InterpAt_intro lx2 L.tail hat

theorem eat_mismatch {s : Interpreter} {L : List STok} (h : InterpAt s L)
    {X : TOKENTYPE} (hX : (peekS L).type ≠ X) :
    s.eat X = (.error (.wanted X), s) := by
  rw [Interpreter.eat, if_neg (by rw [InterpAt_current h]; exact hX)]

theorem eatS_ok {L : List STok} {X : TOKENTYPE} (hX : (peekS L).type = X) :
    eatS X (L.map STok.toToken) = (.ok (), L.tail.map STok.toToken) := by
  rw [eatS, peek_map, if_pos hX, tail_map]

theorem eatS_mismatch {L : List STok} {X : TOKENTYPE} (hX : (peekS L).type ≠ X) :
    eatS X (L.map STok.toToken) = (.error (.wanted X), L.map STok.toToken) := by
  rw [eatS, peek_map, if_neg hX]

theorem SimRes_some {r : Except Err Int} {s1 : Interpreter} {L : List STok}
    (hat : InterpAt s1 L) :
    SimRes (some (r, s1)) (some (r, L.map STok.toToken)) :=
  ⟨rfl, L, rfl, hat⟩

theorem SimRes_bind {x : Option (Except Err Int × Interpreter)}
    {y : Option (Except Err Int × List Token)} (h : SimRes x y)
    {f : Int → Interpreter → Option (Except Err Int × Interpreter)}
    {g : Int → List Token → Option (Except Err Int × List Token)}
    (hfg : ∀ v s2 L2, InterpAt s2 L2 → SimRes (f v s2) (g v (L2.map STok.toToken))) :
    SimRes (bindVal x f) (bindVal y g) := by
  simp only [bindVal]
  cases x with
  | none =>
    cases y with
    | none => trivial
    | some q => exact absurd h (by simp [SimRes])
  | some p =>
    obtain ⟨r, s⟩ := p
    cases y with
    | none => exact absurd h (by simp [SimRes])
    | some q =>
      obtain ⟨r2, ts⟩ := q
      obtain ⟨hr, L2, hts, hat⟩ := h
      subst hr
      subst hts
      cases r with
      | error e => exact SimRes_some hat
      | ok v => exact hfg v s L2 hat

theorem sim : ∀ (fuel : Nat) (rule : Rule) (s : Interpreter) (L : List STok),
    InterpAt s L → SimRes (runRule fuel rule s) (runRuleS fuel rule (L.map STok.toToken)) := by
  intro fuel
  induction fuel with
  | zero =>
    intro rule s L _
    simp [runRule, runRuleS, SimRes]
  | succ fuel ih =>
    intro rule s L hat
    have hcur := InterpAt_current hat
    cases rule with
    | factor =>
      simp only [runRule, runRuleS, peek_map, hcur]
      by_cases hlp : (peekS L).type = TOKENTYPE.LPAREN
      · rw [if_pos hlp, if_pos hlp]
        obtain ⟨heat, hat1⟩ := eat_ok hat hlp
        rw [heat, eatS_ok hlp]
        simp only [bindEat]
        exact SimRes_bind (ih .expr _ L.tail hat1) (by
          intro v s2 L2 hat2
          by_cases hrp : (peekS L2).type = TOKENTYPE.RPAREN
          · obtain ⟨heat2, hat3⟩ := eat_ok hat2 hrp
            rw [heat2, eatS_ok hrp]
            simp only [bindEat]
            exact SimRes_some hat3
          · rw [eat_mismatch hat2 hrp, eatS_mismatch hrp]
            simp only [bindEat]
            exact SimRes_some hat2)
      · rw [if_neg hlp, if_neg hlp]
        by_cases hint : (peekS L).type = TOKENTYPE.INTEGER
        · obtain ⟨heat, hat1⟩ := eat_ok hat hint
          rw [heat, eatS_ok hint]
          simp only [bindEat]
          exact SimRes_some hat1
        · rw [eat_mismatch hat hint, eatS_mismatch hint]
          simp only [bindEat]
          exact SimRes_some hat
    | term =>
      simp only [runRule, runRuleS]
      exact SimRes_bind (ih .factor s L hat) (by
        intro v s2 L2 hat2
        exact ih (.termLoop v) s2 L2 hat2)
    | termLoop result =>
      simp only [runRule, runRuleS, peek_map, hcur]
      by_cases hmul : (peekS L).type = TOKENTYPE.MUL
      · rw [if_pos hmul, if_pos hmul]
        obtain ⟨heat, hat1⟩ := eat_ok hat hmul
        rw [heat, eatS_ok hmul]
        simp only [bindEat]
        exact SimRes_bind (ih .factor _ L.tail hat1) (by
          intro v s2 L2 hat2
          exact ih (.termLoop (result * v)) s2 L2 hat2)
      · rw [if_neg hmul, if_neg hmul]
        by_cases hdiv : (peekS L).type = TOKENTYPE.DIV
        · rw [if_pos hdiv, if_pos hdiv]
          obtain ⟨heat, hat1⟩ := eat_ok hat hdiv
          rw [heat, eatS_ok hdiv]
          simp only [bindEat]
          exact SimRes_bind (ih .factor _ L.tail hat1) (by
            intro v s2 L2 hat2
            by_cases hz : v = 0
            · rw [if_pos hz, if_pos hz]
              exact SimRes_some hat2
            · rw [if_neg hz, if_neg hz]
              exact ih (.termLoop (Int.tdiv result v)) s2 L2 hat2)
        · rw [if_neg hdiv, if_neg hdiv]
          exact SimRes_some hat
    | expr =>
      simp only [runRule, runRuleS]
      exact SimRes_bind (ih .term s L hat) (by
        intro v s2 L2 hat2
        exact ih (.exprLoop v) s2 L2 hat2)
    | exprLoop result =>
      simp only [runRule, runRuleS, peek_map, hcur]
      by_cases hplus : (peekS L).type = TOKENTYPE.PLUS
      · rw [if_pos hplus, if_pos hplus]
        obtain ⟨heat, hat1⟩ := eat_ok hat hplus
        rw [heat, eatS_ok hplus]
        simp only [bindEat]
        exact SimRes_bind (ih .term _ L.tail hat1) (by
          intro v s2 L2 hat2
          exact ih (.exprLoop (result + v)) s2 L2 hat2)
      · rw [if_neg hplus, if_neg hplus]
        by_cases hminus : (peekS L).type = TOKENTYPE.MINUS
        · rw [if_pos hminus, if_pos hminus]
          obtain ⟨heat, hat1⟩ := eat_ok hat hminus
          rw [heat, eatS_ok hminus]
          simp only [bindEat]
          exact SimRes_bind (ih .term _ L.tail hat1) (by
            intro v s2 L2 hat2
            exact ih (.exprLoop (result - v)) s2 L2 hat2)
        · rw [if_neg hminus, if_neg hminus]
          exact SimRes_some hat

/-! ## The staged parser evaluates grammar derivations correctly -/

theorem opFree_mulFree {L : List STok} (h : opFree L = true) : mulFree L = true := by
  cases L with
  | nil => rfl
  | cons t ts =>
    cases t with
    | int n => rfl
    | plus => simp [opFree] at h
    | minus => simp [opFree] at h
    | star => simp [opFree] at h
    | slash => simp [opFree] at h
    | lparen => rfl
    | rparen => rfl

theorem mulFree_peekS {L : List STok} (h : mulFree L = true) :
    (peekS L).type ≠ TOKENTYPE.MUL ∧ (peekS L).type ≠ TOKENTYPE.DIV := by
  cases L with
  | nil => decide
  | cons t ts =>
    cases t with
    | int n => simp +decide [peekS, STok.toToken]
    | plus => simp +decide [peekS, STok.toToken]
    | minus => simp +decide [peekS, STok.toToken]
    | star => simp [mulFree] at h
    | slash => simp [mulFree] at h
    | lparen => simp +decide [peekS, STok.toToken]
    | rparen => simp +decide [peekS, STok.toToken]

theorem opFree_peekS {L : List STok} (h : opFree L = true) :
    (peekS L).type ≠ TOKENTYPE.PLUS ∧ (peekS L).type ≠ TOKENTYPE.MINUS := by
  cases L with
  | nil => decide
  | cons t ts =>
    cases t with
    | int n => simp +decide [peekS, STok.toToken]
    | plus => simp [opFree] at h
    | minus => simp [opFree] at h
    | star => simp +decide [peekS, STok.toToken]
    | slash => simp +decide [peekS, STok.toToken]
    | lparen => simp +decide [peekS, STok.toToken]
    | rparen => simp +decide [peekS, STok.toToken]

theorem mulFree_addTok (op : AddOp) (ts : List STok) :
    mulFree (addTok op :: ts) = true := by
  cases op <;> rfl

mutual
theorem scF (f : Factor) : ∀ (fuel : Nat) (rest : List STok), needF f ≤ fuel →
    ∃ rem, runRuleS fuel .factor ((stoksF f ++ rest).map STok.toToken) =
        some (evalF f, rem) ∧
      (∀ v, evalF f = .ok v → rem = rest.map STok.toToken) := by
  cases f with
  | num n =>
    intro fuel rest hfuel
    obtain ⟨k, rfl⟩ : ∃ k, fuel = k + 1 := ⟨fuel - 1, by simp [needF] at hfuel; omega⟩
    refine ⟨rest.map STok.toToken, ?_, fun v hv => rfl⟩
    simp only [stoksF, List.cons_append, List.nil_append, List.map_cons]
    simp +decide [runRuleS, peek, eatS, bindEat, STok.toToken, evalF]
  | paren e =>
    intro fuel rest hfuel
    obtain ⟨k, rfl⟩ : ∃ k, fuel = k + 1 := ⟨fuel - 1, by simp [needF] at hfuel; omega⟩
    have hkE : needE e ≤ k := by simp [needF] at hfuel; omega
    obtain ⟨rem1, hE, hEok⟩ := scE e k (.rparen :: rest) hkE rfl
    have hassoc : stoksF (.paren e) ++ rest = .lparen :: (stoksE e ++ (.rparen :: rest)) := by
      simp [stoksF]
    rw [hassoc]
    cases hev : evalE e with
    | error err =>
      rw [hev] at hE
      refine ⟨rem1, ?_, ?_⟩
      · simp only [List.map_cons]
        simp only [runRuleS]
        rw [if_pos (show (peek (STok.toToken .lparen ::
            ((stoksE e ++ (.rparen :: rest)).map STok.toToken))).type = TOKENTYPE.LPAREN
          from rfl)]
        rw [show eatS .LPAREN (STok.toToken .lparen ::
            ((stoksE e ++ (.rparen :: rest)).map STok.toToken)) =
            (.ok (), (stoksE e ++ (.rparen :: rest)).map STok.toToken)
          from by simp [eatS, peek, STok.toToken]]
        simp only [bindEat]
        rw [hE]
        simp [bindVal, evalF, hev]
      · intro v hv
        simp [evalF, hev] at hv
    | ok v0 =>
      rw [hev] at hE
      rw [hEok v0 hev] at hE
      refine ⟨rest.map STok.toToken, ?_, fun v hv => rfl⟩
      simp only [List.map_cons]
      simp only [runRuleS]
      rw [if_pos (show (peek (STok.toToken .lparen ::
          ((stoksE e ++ (.rparen :: rest)).map STok.toToken))).type = TOKENTYPE.LPAREN
        from rfl)]
      rw [show eatS .LPAREN (STok.toToken .lparen ::
          ((stoksE e ++ (.rparen :: rest)).map STok.toToken)) =
          (.ok (), (stoksE e ++ (.rparen :: rest)).map STok.toToken)
        from by simp [eatS, peek, STok.toToken]]
      simp only [bindEat]
      rw [hE]
      simp only [bindVal, List.map_cons]
      rw [show eatS .RPAREN (STok.toToken .rparen :: rest.map STok.toToken) =
          (.ok (), rest.map STok.toToken) from by simp [eatS, peek, STok.toToken]]
      simp [bindEat, evalF, hev]

theorem scT (t : Term) : ∀ (fuel : Nat) (rest : List STok), needT t ≤ fuel →
    mulFree rest = true →
    ∃ rem, runRuleS fuel .term ((stoksT t ++ rest).map STok.toToken) =
        some (evalT t, rem) ∧
      (∀ v, evalT t = .ok v → rem = rest.map STok.toToken) := by
  cases t with
  | mk f r =>
    intro fuel rest hfuel hmf
    obtain ⟨k, rfl⟩ : ∃ k, fuel = k + 1 := ⟨fuel - 1, by simp [needT] at hfuel; omega⟩
    have hkF : needF f ≤ k := by simp [needT] at hfuel; omega
    have hkR : needTR r ≤ k := by simp [needT] at hfuel; omega
    obtain ⟨rem1, hF, hFok⟩ := scF f k (stoksTR r ++ rest) hkF
    have hassoc : stoksT (.mk f r) ++ rest = stoksF f ++ (stoksTR r ++ rest) := by
      simp [stoksT]
    rw [hassoc]
    cases hev : evalF f with
    | error err =>
      rw [hev] at hF
      refine ⟨rem1, ?_, ?_⟩
      · simp only [runRuleS]
        rw [hF]
        simp [bindVal, evalT, hev]
      · intro v hv
        simp [evalT, hev] at hv
    | ok v0 =>
      rw [hev] at hF
      rw [hFok v0 hev] at hF
      obtain ⟨rem2, hR, hRok⟩ := scTR r k v0 rest hkR hmf
      refine ⟨rem2, ?_, ?_⟩
      · simp only [runRuleS]
        rw [hF]
        simp only [bindVal]
        rw [hR]
        simp [evalT, hev]
      · intro v hv
        apply hRok
        simpa [evalT, hev] using hv

theorem scTR (r : TermRest) : ∀ (fuel : Nat) (acc : Int) (rest : List STok),
    needTR r ≤ fuel → mulFree rest = true →
    ∃ rem, runRuleS fuel (.termLoop acc) ((stoksTR r ++ rest).map STok.toToken) =
        some (evalTR acc r, rem) ∧
      (∀ v, evalTR acc r = .ok v → rem = rest.map STok.toToken) := by
  cases r with
  | nil =>
    intro fuel acc rest hfuel hmf
    obtain ⟨k, rfl⟩ : ∃ k, fuel = k + 1 := ⟨fuel - 1, by simp [needTR] at hfuel; omega⟩
    have hnm := mulFree_peekS hmf
    refine ⟨rest.map STok.toToken, ?_, fun v hv => rfl⟩
    simp only [stoksTR, List.nil_append]
    simp only [runRuleS]
    rw [peek_map, if_neg hnm.1, if_neg hnm.2]
    simp [evalTR]
  | cons op f r' =>
    intro fuel acc rest hfuel hmf
    obtain ⟨k, rfl⟩ : ∃ k, fuel = k + 1 := ⟨fuel - 1, by simp [needTR] at hfuel; omega⟩
    have hkF : needF f ≤ k := by simp [needTR] at hfuel; omega
    have hkR : needTR r' ≤ k := by simp [needTR] at hfuel; omega
    obtain ⟨rem1, hF, hFok⟩ := scF f k (stoksTR r' ++ rest) hkF
    have hassoc : stoksTR (.cons op f r') ++ rest =
        mulTok op :: (stoksF f ++ (stoksTR r' ++ rest)) := by
      simp [stoksTR]
    rw [hassoc]
    cases op with
    | times =>
      simp only [mulTok, List.map_cons]
      simp only [runRuleS]
      rw [if_pos (show (peek (STok.toToken .star ::
          ((stoksF f ++ (stoksTR r' ++ rest)).map STok.toToken))).type = TOKENTYPE.MUL
        from rfl)]
      rw [show eatS .MUL (STok.toToken .star ::
          ((stoksF f ++ (stoksTR r' ++ rest)).map STok.toToken)) =
          (.ok (), (stoksF f ++ (stoksTR r' ++ rest)).map STok.toToken)
        from by simp [eatS, peek, STok.toToken]]
      simp only [bindEat]
      cases hev : evalF f with
      | error err =>
        rw [hev] at hF
        refine ⟨rem1, ?_, ?_⟩
        · rw [hF]
          simp [bindVal, evalTR, hev]
        · intro v hv
          simp [evalTR, hev] at hv
      | ok v0 =>
        rw [hev] at hF
        rw [hFok v0 hev] at hF
        obtain ⟨rem2, hR, hRok⟩ := scTR r' k (acc * v0) rest hkR hmf
        refine ⟨rem2, ?_, ?_⟩
        · rw [hF]
          simp only [bindVal]
          rw [hR]
          simp [evalTR, hev]
        · intro v hv
          apply hRok
          simpa [evalTR, hev] using hv
    | divide =>
      simp only [mulTok, List.map_cons]
      simp only [runRuleS]
      rw [if_neg (show ¬ (peek (STok.toToken .slash ::
          ((stoksF f ++ (stoksTR r' ++ rest)).map STok.toToken))).type = TOKENTYPE.MUL
        from by simp +decide [peek, STok.toToken])]
      rw [if_pos (show (peek (STok.toToken .slash ::
          ((stoksF f ++ (stoksTR r' ++ rest)).map STok.toToken))).type = TOKENTYPE.DIV
        from rfl)]
      rw [show eatS .DIV (STok.toToken .slash ::
          ((stoksF f ++ (stoksTR r' ++ rest)).map STok.toToken)) =
          (.ok (), (stoksF f ++ (stoksTR r' ++ rest)).map STok.toToken)
        from by simp [eatS, peek, STok.toToken]]
      simp only [bindEat]
      cases hev : evalF f with
      | error err =>
        rw [hev] at hF
        refine ⟨rem1, ?_, ?_⟩
        · rw [hF]
          simp [bindVal, evalTR, hev]
        · intro v hv
          simp [evalTR, hev] at hv
      | ok v0 =>
        rw [hev] at hF
        rw [hFok v0 hev] at hF
        by_cases hz : v0 = 0
        · refine ⟨(stoksTR r' ++ rest).map STok.toToken, ?_, ?_⟩
          · rw [hF]
            simp only [bindVal]
            rw [if_pos hz]
            simp [evalTR, hev, hz]
          · intro v hv
            simp [evalTR, hev, hz] at hv
        · obtain ⟨rem2, hR, hRok⟩ := scTR r' k (Int.tdiv acc v0) rest hkR hmf
          refine ⟨rem2, ?_, ?_⟩
          · rw [hF]
            simp only [bindVal]
            rw [if_neg hz, hR]
            simp [evalTR, hev, hz]
          · intro v hv
            apply hRok
            simpa [evalTR, hev, hz] using hv

theorem scE (e : Expr) : ∀ (fuel : Nat) (rest : List STok), needE e ≤ fuel →
    opFree rest = true →
    ∃ rem, runRuleS fuel .expr ((stoksE e ++ rest).map STok.toToken) =
        some (evalE e, rem) ∧
      (∀ v, evalE e = .ok v → rem = rest.map STok.toToken) := by
  cases e with
  | mk t r =>
    intro fuel rest hfuel hof
    obtain ⟨k, rfl⟩ : ∃ k, fuel = k + 1 := ⟨fuel - 1, by simp [needE] at hfuel; omega⟩
    have hkT : needT t ≤ k := by simp [needE] at hfuel; omega
    have hkR : needER r ≤ k := by simp [needE] at hfuel; omega
    have hmf : mulFree (stoksER r ++ rest) = true := by
      cases r with
      | nil => simpa [stoksER] using opFree_mulFree hof
      | cons op t' r'' => exact mulFree_addTok op _
    obtain ⟨rem1, hT, hTok⟩ := scT t k (stoksER r ++ rest) hkT hmf
    have hassoc : stoksE (.mk t r) ++ rest = stoksT t ++ (stoksER r ++ rest) := by
      simp [stoksE]
    rw [hassoc]
    cases hev : evalT t with
    | error err =>
      rw [hev] at hT
      refine ⟨rem1, ?_, ?_⟩
      · simp only [runRuleS]
        rw [hT]
        simp [bindVal, evalE, hev]
      · intro v hv
        simp [evalE, hev] at hv
    | ok v0 =>
      rw [hev] at hT
      rw [hTok v0 hev] at hT
      obtain ⟨rem2, hR, hRok⟩ := scER r k v0 rest hkR hof
      refine ⟨rem2, ?_, ?_⟩
      · simp only [runRuleS]
        rw [hT]
        simp only [bindVal]
        rw [hR]
        simp [evalE, hev]
      · intro v hv
        apply hRok
        simpa [evalE, hev] using hv

theorem scER (r : ExprRest) : ∀ (fuel : Nat) (acc : Int) (rest : List STok),
    needER r ≤ fuel → opFree rest = true →
    ∃ rem, runRuleS fuel (.exprLoop acc) ((stoksER r ++ rest).map STok.toToken) =
        some (evalER acc r, rem) ∧
      (∀ v, evalER acc r = .ok v → rem = rest.map STok.toToken) := by
  cases r with
  | nil =>
    intro fuel acc rest hfuel hof
    obtain ⟨k, rfl⟩ : ∃ k, fuel = k + 1 := ⟨fuel - 1, by simp [needER] at hfuel; omega⟩
    have hna := opFree_peekS hof
    refine ⟨rest.map STok.toToken, ?_, fun v hv => rfl⟩
    simp only [stoksER, List.nil_append]
    simp only [runRuleS]
    rw [peek_map, if_neg hna.1, if_neg hna.2]
    simp [evalER]
  | cons op t' r' =>
    intro fuel acc rest hfuel hof
    obtain ⟨k, rfl⟩ : ∃ k, fuel = k + 1 := ⟨fuel - 1, by simp [needER] at hfuel; omega⟩
    have hkT : needT t' ≤ k := by simp [needER] at hfuel; omega
    have hkR : needER r' ≤ k := by simp [needER] at hfuel; omega
    have hmf : mulFree rest = true := opFree_mulFree hof
    obtain ⟨rem1, hT, hTok⟩ := scT t' k (stoksER r' ++ rest) hkT (by
      cases r' with
      | nil => simpa [stoksER] using hmf
      | cons op2 t2 r2 => exact mulFree_addTok op2 _)
    have hassoc : stoksER (.cons op t' r') ++ rest =
        addTok op :: (stoksT t' ++ (stoksER r' ++ rest)) := by
      simp [stoksER]
    rw [hassoc]
    cases op with
    | plus =>
      simp only [addTok, List.map_cons]
      simp only [runRuleS]
      rw [if_pos (show (peek (STok.toToken .plus ::
          ((stoksT t' ++ (stoksER r' ++ rest)).map STok.toToken))).type = TOKENTYPE.PLUS
        from rfl)]
      rw [show eatS .PLUS (STok.toToken .plus ::
          ((stoksT t' ++ (stoksER r' ++ rest)).map STok.toToken)) =
          (.ok (), (stoksT t' ++ (stoksER r' ++ rest)).map STok.toToken)
        from by simp [eatS, peek, STok.toToken]]
      simp only [bindEat]
      cases hev : evalT t' with
      | error err =>
        rw [hev] at hT
        refine ⟨rem1, ?_, ?_⟩
        · rw [hT]
          simp [bindVal, evalER, hev]
        · intro v hv
          simp [evalER, hev] at hv
      | ok v0 =>
        rw [hev] at hT
        rw [hTok v0 hev] at hT
        obtain ⟨rem2, hR, hRok⟩ := scER r' k (acc + v0) rest hkR hof
        refine ⟨rem2, ?_, ?_⟩
        · rw [hT]
          simp only [bindVal]
          rw [hR]
          simp [evalER, hev]
        · intro v hv
          apply hRok
          simpa [evalER, hev] using hv
    | minus =>
      simp only [addTok, List.map_cons]
      simp only [runRuleS]
      rw [if_neg (show ¬ (peek (STok.toToken .minus ::
          ((stoksT t' ++ (stoksER r' ++ rest)).map STok.toToken))).type = TOKENTYPE.PLUS
        from by simp +decide [peek, STok.toToken])]
      rw [if_pos (show (peek (STok.toToken .minus ::
          ((stoksT t' ++ (stoksER r' ++ rest)).map STok.toToken))).type = TOKENTYPE.MINUS
        from rfl)]
      rw [show eatS .MINUS (STok.toToken .minus ::
          ((stoksT t' ++ (stoksER r' ++ rest)).map STok.toToken)) =
          (.ok (), (stoksT t' ++ (stoksER r' ++ rest)).map STok.toToken)
        from by simp [eatS, peek, STok.toToken]]
      simp only [bindEat]
      cases hev : evalT t' with
      | error err =>
        rw [hev] at hT
        refine ⟨rem1, ?_, ?_⟩
        · rw [hT]
          simp [bindVal, evalER, hev]
        · intro v hv
          simp [evalER, hev] at hv
      | ok v0 =>
        rw [hev] at hT
        rw [hTok v0 hev] at hT
        obtain ⟨rem2, hR, hRok⟩ := scER r' k (acc - v0) rest hkR hof
        refine ⟨rem2, ?_, ?_⟩
        · rw [hT]
          simp only [bindVal]
          rw [hR]
          simp [evalER, hev]
        · intro v hv
          apply hRok
          simpa [evalER, hev] using hv
end

/-! ## Fuel bounds -/

mutual
theorem needF_le (f : Factor) : needF f ≤ 2 * (stoksF f).length + 1 := by
  cases f with
  | num n => simp [needF, stoksF]
  | paren e =>
    have h := needE_le e
    simp only [needF, stoksF, List.length_cons, List.length_append]
    omega
theorem needT_le (t : Term) : needT t ≤ 2 * (stoksT t).length + 2 := by
  cases t with
  | mk f r =>
    have h1 := needF_le f
    have h2 := needTR_le r
    simp only [needT, stoksT, List.length_append]
    omega
theorem needTR_le (r : TermRest) : needTR r ≤ 2 * (stoksTR r).length + 1 := by
  cases r with
  | nil => simp [needTR, stoksTR]
  | cons op f r' =>
    have h1 := needF_le f
    have h2 := needTR_le r'
    simp only [needTR, stoksTR, List.length_cons, List.length_append]
    omega
theorem needE_le (e : Expr) : needE e ≤ 2 * (stoksE e).length + 3 := by
  cases e with
  | mk t r =>
    have h1 := needT_le t
    have h2 := needER_le r
    simp only [needE, stoksE, List.length_append]
    omega
theorem needER_le (r : ExprRest) : needER r ≤ 2 * (stoksER r).length + 1 := by
  cases r with
  | nil => simp [needER, stoksER]
  | cons op t r' =>
    have h1 := needT_le t
    have h2 := needER_le r'
    simp only [needER, stoksER, List.length_cons, List.length_append]
    omega
end

theorem render_filter (t : STok) :
    t.render.filter (fun c => !isspaceChar c) = t.render := by
  apply List.filter_eq_self.mpr
  intro c hc
  simp [render_all_not_ws t c hc]

theorem renderToks_filter_length (stoks : List STok) :
    ∀ pads, stoks.length ≤
      ((renderToks stoks pads).filter (fun c => !isspaceChar c)).length := by
  induction stoks with
  | nil => intro pads; simp
  | cons t ts ih =>
    intro pads
    have hr : 1 ≤ t.render.length := List.length_pos.mpr (render_ne_nil t)
    have := ih pads.tail
    simp only [renderToks, List.filter_append, List.length_append, List.length_cons,
      render_filter]
    omega

theorem pad_filter {p : List Char} (h : wsOnly p = true) :
    p.filter (fun c => !isspaceChar c) = [] := by
  induction p with
  | nil => rfl
  | cons c cs ih =>
    have hc : isspaceChar c = true := by
      simpa using List.all_eq_true.mp h c (List.mem_cons_self c cs)
    have hcs : wsOnly cs = true := by
      apply List.all_eq_true.mpr
      intro x hx
      exact List.all_eq_true.mp h x (List.mem_cons_of_mem c hx)
    simp [List.filter_cons, hc, ih hcs]

theorem renderToks_filter_pads (stoks : List STok) :
    ∀ pads, padsOk pads = true →
      (renderToks stoks pads).filter (fun c => !isspaceChar c) =
        (renderToks stoks []).filter (fun c => !isspaceChar c) := by
  induction stoks with
  | nil =>
    intro pads hpads
    simp only [renderToks]
    rw [pad_filter (padsOk_headD hpads)]
    rfl
  | cons t ts ih =>
    intro pads hpads
    simp only [renderToks, List.filter_append, pad_filter (padsOk_headD hpads),
      ih pads.tail (padsOk_tail hpads)]
    simp [renderToks]

theorem fuelFor_pads (stoks : List STok) (ps1 ps2 : List (List Char))
    (h1 : padsOk ps1 = true) (h2 : padsOk ps2 = true) :
    fuelFor (renderToks stoks ps1) = fuelFor (renderToks stoks ps2) := by
  simp only [fuelFor, renderToks_filter_pads stoks ps1 h1,
    renderToks_filter_pads stoks ps2 h2]

theorem needE_le_fuelFor (e : Expr) (junk : List STok) (pads : List (List Char)) :
    needE e ≤ fuelFor (renderToks (stoksE e ++ junk) pads) := by
  have h1 := needE_le e
  have h2 := renderToks_filter_length (stoksE e ++ junk) pads
  have h3 : (stoksE e).length ≤ (stoksE e ++ junk).length := by simp
  simp only [fuelFor]
  omega

/-! ## The pipeline: one input line from characters to outcome -/

theorem interpretChars_toks (stoks : List STok) (pads : List (List Char))
    (hpads : padsOk pads = true) (hmerge : noMerge stoks pads = true) :
    interpretChars (renderToks stoks pads) =
      match runRuleS (fuelFor (renderToks stoks pads)) .expr
          (stoks.map STok.toToken) with
      | none => none
      | some (r, _) => some r := by
  have hinit : LexAt (Lexer.init (renderToks stoks pads)) stoks :=
    ⟨[], pads, hpads, hmerge, by simp [Lexer.init], rfl⟩
  obtain ⟨lx1, hpull, hat⟩ := LexAt_pull hinit
  have hsim := sim (fuelFor (renderToks stoks pads)) .expr ⟨lx1, peekS stoks⟩ stoks
    (InterpAt_intro lx1 stoks hat)
  simp only [interpretChars]
  rw [hpull]
  show (match runRule (fuelFor (renderToks stoks pads)) .expr
      { lexer := lx1, current_token := peekS stoks } with
    | none => none
    | some (r, _) => some r) = _
  cases hx : runRule (fuelFor (renderToks stoks pads)) .expr ⟨lx1, peekS stoks⟩ with
  | none =>
    rw [hx] at hsim
    cases hy : runRuleS (fuelFor (renderToks stoks pads)) .expr
        (stoks.map STok.toToken) with
    | none => rfl
    | some q =>
      rw [hy] at hsim
      exact absurd hsim (by simp [SimRes])
  | some p =>
    obtain ⟨r, s1⟩ := p
    rw [hx] at hsim
    cases hy : runRuleS (fuelFor (renderToks stoks pads)) .expr
        (stoks.map STok.toToken) with
    | none =>
      rw [hy] at hsim
      exact absurd hsim (by simp [SimRes])
    | some q =>
      obtain ⟨r2, ts2⟩ := q
      rw [hy] at hsim
      obtain ⟨hr, -⟩ := hsim
      rw [hr]

theorem interpret_expr (e : Expr) (pads : List (List Char)) (hpads : padsOk pads = true)
    (hmerge : noMerge (stoksE e) pads = true) :
    interpretChars (renderToks (stoksE e) pads) = some (evalE e) := by
  rw [interpretChars_toks (stoksE e) pads hpads hmerge]
  have hfuel : needE e ≤ fuelFor (renderToks (stoksE e) pads) := by
    have := needE_le_fuelFor e [] pads
    simpa using this
  obtain ⟨rem, hrun, -⟩ := scE e (fuelFor (renderToks (stoksE e) pads)) [] hfuel rfl
  simp only [List.append_nil] at hrun
  rw [hrun]

theorem interpret_expr_junk (e : Expr) (junk : List STok) (pads : List (List Char))
    (v : Int) (hpads : padsOk pads = true)
    (hmerge : noMerge (stoksE e ++ junk) pads = true) (hjunk : opFree junk = true)
    (hok : evalE e = .ok v) :
    interpretChars (renderToks (stoksE e ++ junk) pads) = some (.ok v) := by
  rw [interpretChars_toks (stoksE e ++ junk) pads hpads hmerge]
  obtain ⟨rem, hrun, -⟩ := scE e (fuelFor (renderToks (stoksE e ++ junk) pads)) junk
    (needE_le_fuelFor e junk pads) hjunk
  rw [hrun, hok]

theorem runRule_eof (n : Nat) (s : Interpreter)
    (h : s.current_token.type = TOKENTYPE.ENDOFFILE) :
    runRule (n + 3) .expr s = some (.error (.wanted .INTEGER), s) := by
  have heat : s.eat .INTEGER = (.error (.wanted .INTEGER), s) := by
    rw [Interpreter.eat, if_neg (by rw [h]; decide)]
  simp only [runRule]
  rw [heat]
  simp +decide [h, bindEat, bindVal]

/-! ## Claims -/

/-- C1: for every syntactically valid expression string — a whitespace-padded
rendering of a grammar derivation `e` — in which no division sub-expression
has a zero divisor (equivalently, the standard left-to-right evaluation
`evalE e` succeeds with value `v`), running the tokenizer together with
`Interpreter::expression` terminates (returns `some`, never exhausting its
fuel) with exactly the value `v` of standard precedence-respecting integer
arithmetic with truncating division. -/
theorem valid_expression_evaluates (e : Expr) (pads : List (List Char)) (v : Int)
    (hpads : padsOk pads = true) (hmerge : noMerge (stoksE e) pads = true)
    (hok : evalE e = .ok v) :
    interpretChars (renderToks (stoksE e) pads) = some (.ok v) := by
  rw [interpret_expr e pads hpads hmerge, hok]

/-- C1 witness: the derivation of `14 + 2 * 3 - 6 / 2` rendered without
padding evaluates to 17. -/
theorem valid_expression_evaluates_witness :
    padsOk [] = true ∧
    noMerge (stoksE (Expr.mk (Term.mk (Factor.num 14) TermRest.nil)
      (ExprRest.cons AddOp.plus
        (Term.mk (Factor.num 2) (TermRest.cons MulOp.times (Factor.num 3) TermRest.nil))
        (ExprRest.cons AddOp.minus
          (Term.mk (Factor.num 6) (TermRest.cons MulOp.divide (Factor.num 2) TermRest.nil))
          ExprRest.nil)))) [] = true ∧
    evalE (Expr.mk (Term.mk (Factor.num 14) TermRest.nil)
      (ExprRest.cons AddOp.plus
        (Term.mk (Factor.num 2) (TermRest.cons MulOp.times (Factor.num 3) TermRest.nil))
        (ExprRest.cons AddOp.minus
          (Term.mk (Factor.num 6) (TermRest.cons MulOp.divide (Factor.num 2) TermRest.nil))
          ExprRest.nil))) = .ok 17 ∧
    renderToks (stoksE (Expr.mk (Term.mk (Factor.num 14) TermRest.nil)
      (ExprRest.cons AddOp.plus
        (Term.mk (Factor.num 2) (TermRest.cons MulOp.times (Factor.num 3) TermRest.nil))
        (ExprRest.cons AddOp.minus
          (Term.mk (Factor.num 6) (TermRest.cons MulOp.divide (Factor.num 2) TermRest.nil))
          ExprRest.nil)))) [] = "14+2*3-6/2".data ∧
    interpretChars "14+2*3-6/2".data = some (.ok 17) :=
  ⟨rfl, rfl, rfl, rfl, valid_expression_evaluates
    (Expr.mk (Term.mk (Factor.num 14) TermRest.nil)
      (ExprRest.cons AddOp.plus
        (Term.mk (Factor.num 2) (TermRest.cons MulOp.times (Factor.num 3) TermRest.nil))
        (ExprRest.cons AddOp.minus
          (Term.mk (Factor.num 6) (TermRest.cons MulOp.divide (Factor.num 2) TermRest.nil))
          ExprRest.nil))) [] 17 rfl rfl rfl⟩

/-- C2 counterexample: the input `"1)"` has a trailing unconsumed `)` after
the top-level expression, yet evaluation succeeds and returns `1` instead of
failing with a syntax error, refuting the claim that the lookahead must be
`EndOfInput` for evaluation to succeed. -/
theorem trailing_rparen_accepted : interpret "1)" = some (.ok 1) := rfl

/-- C2 (amended): after the top-level `expression` finishes, the parser does
not require the lookahead to be `EndOfInput`: any trailing tokens that do not
extend the expression (the trailing part not starting with an operator) are
silently ignored and the value parsed so far is returned. -/
theorem trailing_tokens_ignored (e : Expr) (junk : List STok)
    (pads : List (List Char)) (v : Int) (hpads : padsOk pads = true)
    (hmerge : noMerge (stoksE e ++ junk) pads = true) (hjunk : opFree junk = true)
    (hok : evalE e = .ok v) :
    interpretChars (renderToks (stoksE e ++ junk) pads) = some (.ok v) :=
  interpret_expr_junk e junk pads v hpads hmerge hjunk hok

/-- C2 witness: `"1)"` is the rendering of the derivation of `1` followed by
a stray `)`, and evaluates successfully to `1`. -/
theorem trailing_tokens_ignored_witness :
    padsOk [] = true ∧
    noMerge (stoksE (Expr.mk (Term.mk (Factor.num 1) TermRest.nil) ExprRest.nil) ++
      [STok.rparen]) [] = true ∧
    opFree [STok.rparen] = true ∧
    evalE (Expr.mk (Term.mk (Factor.num 1) TermRest.nil) ExprRest.nil) = .ok 1 ∧
    renderToks (stoksE (Expr.mk (Term.mk (Factor.num 1) TermRest.nil) ExprRest.nil) ++
      [STok.rparen]) [] = "1)".data ∧
    interpretChars "1)".data = some (.ok 1) :=
  ⟨rfl, rfl, rfl, rfl, rfl,
    trailing_tokens_ignored (Expr.mk (Term.mk (Factor.num 1) TermRest.nil) ExprRest.nil)
      [STok.rparen] [] 1 rfl rfl rfl rfl⟩

/-- C3: whenever the standard left-to-right evaluation of an expression
reaches a division whose right operand evaluates to zero (that is, `evalE e`
fails with the division-by-zero error), evaluating any whitespace-padded
rendering of that expression fails with the `"Division by zero"` evaluation
error; the error is the outcome of the whole line and no value is returned. -/
theorem div_by_zero_fails (e : Expr) (pads : List (List Char))
    (hpads : padsOk pads = true) (hmerge : noMerge (stoksE e) pads = true)
    (herr : evalE e = .error .divByZero) :
    interpretChars (renderToks (stoksE e) pads) = some (.error .divByZero) := by
  rw [interpret_expr e pads hpads hmerge, herr]

/-- C3 witness: the derivation of `5 / 0`, padded so that it renders exactly
as the string `"5 / 0"`, fails with the division-by-zero error. -/
theorem div_by_zero_fails_witness :
    padsOk [[], [' '], [' ']] = true ∧
    noMerge (stoksE (Expr.mk (Term.mk (Factor.num 5)
      (TermRest.cons MulOp.divide (Factor.num 0) TermRest.nil)) ExprRest.nil))
      [[], [' '], [' ']] = true ∧
    evalE (Expr.mk (Term.mk (Factor.num 5)
      (TermRest.cons MulOp.divide (Factor.num 0) TermRest.nil)) ExprRest.nil) =
      .error .divByZero ∧
    renderToks (stoksE (Expr.mk (Term.mk (Factor.num 5)
      (TermRest.cons MulOp.divide (Factor.num 0) TermRest.nil)) ExprRest.nil))
      [[], [' '], [' ']] = "5 / 0".data ∧
    interpretChars "5 / 0".data = some (.error .divByZero) :=
  ⟨rfl, rfl, rfl, rfl, div_by_zero_fails
    (Expr.mk (Term.mk (Factor.num 5)
      (TermRest.cons MulOp.divide (Factor.num 0) TermRest.nil)) ExprRest.nil)
    [[], [' '], [' ']] rfl rfl rfl⟩

/-- C4 counterexample: the lexical error raised at the `$` in `"3 $ 4"`
(position 2) is exactly the same error value as the one raised at the `$` in
`"$"` (position 0) — the thrown message `"Error parsing input. Got: $"`
identifies the offending character but carries no position, refuting the
claim that the error identifies the position. -/
theorem lexical_error_position_blind :
    ((Lexer.mk "3 $ 4".data 1).get_next_token).1 = .error (.lexical '$') ∧
    ((Lexer.mk "$".data 0).get_next_token).1 = .error (.lexical '$') ∧
    ((Lexer.mk "3 $ 4".data 1).get_next_token).1 =
      ((Lexer.mk "$".data 0).get_next_token).1 :=
  ⟨rfl, rfl, rfl⟩

/-- C4 (amended): when the tokenizer's cursor stands on a character that is
not a digit, not whitespace and not one of the seven symbols, `get_next_token`
fails with the lexical error identifying that offending character (but not
its position), and the cursor does not advance: the lexer state is returned
unchanged, still addressing the offending character. -/
theorem lexical_error_identifies_char (lx : Lexer) (h0 : lx.cur ≠ nulChar)
    (h1 : isspaceChar lx.cur = false) (h2 : isdigitChar lx.cur = false)
    (h3 : lx.cur ≠ '*') (h4 : lx.cur ≠ '/') (h5 : lx.cur ≠ '+') (h6 : lx.cur ≠ '-')
    (h7 : lx.cur ≠ '(') (h8 : lx.cur ≠ ')') :
    lx.get_next_token = (.error (.lexical lx.cur), lx) := by
  have hskip : lx.skipIfWs = lx := by
    rw [Lexer.skipIfWs, if_neg (by simp [h1])]
  simp only [Lexer.get_next_token]
  rw [hskip, if_neg h0, if_neg (by simp [h2]), if_neg h3, if_neg h4, if_neg h5,
    if_neg h6, if_neg h7, if_neg h8]

/-- C4 witness: in `"3 $ 4"` with the cursor on the `$` (position 2, where
`get_next_token` stops after skipping the blank), the tokenizer fails with
the lexical error carrying `'$'` and the cursor stays on the `$`. -/
theorem lexical_error_identifies_char_witness :
    (Lexer.mk "3 $ 4".data 2).cur = '$' ∧
    (Lexer.mk "3 $ 4".data 2).get_next_token =
      (.error (.lexical (Lexer.mk "3 $ 4".data 2).cur), Lexer.mk "3 $ 4".data 2) :=
  ⟨rfl, lexical_error_identifies_char (Lexer.mk "3 $ 4".data 2) (by decide)
    (by decide) (by decide) (by decide) (by decide) (by decide) (by decide)
    (by decide) (by decide)⟩

/-- C5: multiplication and division bind tighter than addition and
subtraction, and parentheses override that precedence: `"14 + 2 * 3 - 6 / 2"`
evaluates to 17 and `"7 * (2 + 3)"` evaluates to 35. -/
theorem precedence_concrete :
    interpret "14 + 2 * 3 - 6 / 2" = some (.ok 17) ∧
    interpret "7 * (2 + 3)" = some (.ok 35) :=
  ⟨rfl, rfl⟩

/-- C6: chains of same-precedence operators fold left to right:
`"7 - 3 + 2 - 1"` evaluates to 5 and `"10 / 2 / 5"` evaluates to 1
(that is, `(10/2)/5`, not `10/(2/5)`). -/
theorem left_associativity_concrete :
    interpret "7 - 3 + 2 - 1" = some (.ok 5) ∧
    interpret "10 / 2 / 5" = some (.ok 1) :=
  ⟨rfl, rfl⟩

/-- C7 counterexample: `"(1 + 2"` (observed lookahead `EndOfInput`) and
`"(1 + 2 3"` (observed lookahead `Integer`) fail with exactly the same error
value — the thrown message `"Error parsing input. Wanted: RPAREN"` names only
the expected kind, refuting the claim that the error also carries the
observed kind `EndOfInput`. -/
theorem unbalanced_error_observed_blind :
    interpret "(1 + 2" = interpret "(1 + 2 3" ∧
    interpret "(1 + 2 3" = some (.error (.wanted .RPAREN)) :=
  ⟨rfl, rfl⟩

/-- C7 (amended): evaluating `"(1 + 2"` (unclosed parenthesis) fails with the
syntax error naming the expected kind `RPAREN` (at that point the observed
lookahead is in fact `EndOfInput`, but the error records only the expected
kind); no value is produced. -/
theorem unbalanced_paren_error :
    interpret "(1 + 2" = some (.error (.wanted .RPAREN)) := rfl

/-- C8 counterexample: removing the whitespace between the two integer tokens
of `"1 2"` (an edit between tokens, not inside a literal) merges them into the
single literal `"12"` and changes the outcome from `1` to `12`, refuting the
claim for arbitrary whitespace removal between tokens. -/
theorem whitespace_between_integers_matters :
    interpret "1 2" = some (.ok 1) ∧ interpret "12" = some (.ok 12) :=
  ⟨rfl, rfl⟩

/-- C8 (amended): whitespace between tokens is irrelevant as long as adjacent
integer literals stay separated: any two whitespace paddings of the same
token sequence (each keeping consecutive integer tokens apart) evaluate to
the same outcome, value or error. -/
theorem whitespace_padding_insensitive (stoks : List STok)
    (ps1 ps2 : List (List Char)) (h1 : padsOk ps1 = true) (h2 : padsOk ps2 = true)
    (h3 : noMerge stoks ps1 = true) (h4 : noMerge stoks ps2 = true) :
    interpretChars (renderToks stoks ps1) = interpretChars (renderToks stoks ps2) := by
  rw [interpretChars_toks stoks ps1 h1 h3, interpretChars_toks stoks ps2 h2 h4,
    fuelFor_pads stoks ps1 ps2 h1 h2]

/-- C8 witness: `"3 + 5"` and `"3+5"` are two paddings of the same token
sequence and evaluate identically. -/
theorem whitespace_padding_insensitive_witness :
    padsOk [[], [' '], [' ']] = true ∧
    padsOk [] = true ∧
    noMerge [STok.int 3, STok.plus, STok.int 5] [[], [' '], [' ']] = true ∧
    noMerge [STok.int 3, STok.plus, STok.int 5] [] = true ∧
    renderToks [STok.int 3, STok.plus, STok.int 5] [[], [' '], [' ']] = "3 + 5".data ∧
    renderToks [STok.int 3, STok.plus, STok.int 5] [] = "3+5".data ∧
    interpretChars "3 + 5".data = interpretChars "3+5".data :=
  ⟨rfl, rfl, rfl, rfl, rfl, rfl,
    whitespace_padding_insensitive [STok.int 3, STok.plus, STok.int 5]
      [[], [' '], [' ']] [] rfl rfl rfl rfl⟩

/-- C9: once `get_next_token` has returned an `EndOfInput` token, every
subsequent call returns `EndOfInput` again and leaves the cursor state
unchanged: the state returned along with an `ENDOFFILE` token is a fixed
point of `get_next_token`. -/
theorem eof_idempotent (lx lx2 : Lexer) (t : Token)
    (hpull : lx.get_next_token = (.ok t, lx2)) (ht : t.type = TOKENTYPE.ENDOFFILE) :
    lx2.get_next_token = (.ok t, lx2) := by
  have hmain : lx2.cur = nulChar ∧ t = eofToken := by
    simp only [Lexer.get_next_token] at hpull
    split_ifs at hpull with h1 h2 h3 h4 h5 h6 h7 h8
    · simp only [Prod.mk.injEq, Except.ok.injEq] at hpull
      exact ⟨by rw [← hpull.2]; exact h1, hpull.1.symm⟩
    · simp only [Prod.mk.injEq, Except.ok.injEq] at hpull
      rw [← hpull.1] at ht
      simp at ht
    · simp only [Prod.mk.injEq, Except.ok.injEq] at hpull
      rw [← hpull.1] at ht
      simp at ht
    · simp only [Prod.mk.injEq, Except.ok.injEq] at hpull
      rw [← hpull.1] at ht
      simp at ht
    · simp only [Prod.mk.injEq, Except.ok.injEq] at hpull
      rw [← hpull.1] at ht
      simp at ht
    · simp only [Prod.mk.injEq, Except.ok.injEq] at hpull
      rw [← hpull.1] at ht
      simp at ht
    · simp only [Prod.mk.injEq, Except.ok.injEq] at hpull
      rw [← hpull.1] at ht
      simp at ht
    · simp only [Prod.mk.injEq, Except.ok.injEq] at hpull
      rw [← hpull.1] at ht
      simp at ht
    · simp at hpull
  obtain ⟨hc, rfl⟩ := hmain
  have hskip : lx2.skipIfWs = lx2 := by
    rw [Lexer.skipIfWs, if_neg (by rw [hc]; simp)]
  simp only [Lexer.get_next_token]
  rw [hskip, hc, if_pos rfl]

/-- C9 witness: on the all-blank input `" "` the first pull returns
`ENDOFFILE` with the cursor at the end, and pulling again returns `ENDOFFILE`
with the very same state. -/
theorem eof_idempotent_witness :
    (Lexer.mk " ".data 0).get_next_token = (.ok eofToken, Lexer.mk " ".data 1) ∧
    (Lexer.mk " ".data 1).get_next_token = (.ok eofToken, Lexer.mk " ".data 1) :=
  ⟨rfl, eof_idempotent (Lexer.mk " ".data 0) (Lexer.mk " ".data 1) eofToken rfl rfl⟩

/-- C10: on the empty input and on every whitespace-only input, the first
token is `EndOfInput` (no lexical error is raised), and evaluation fails with
the syntax error naming the expected kind `INTEGER` (raised by `factor`); no
value is produced. -/
theorem empty_input_syntax_error (s : String)
    (h : ∀ c ∈ s.data, isspaceChar c = true) :
    ((Lexer.init s.data).get_next_token).1 = .ok eofToken ∧
    interpret s = some (.error (.wanted .INTEGER)) := by
  have hws : wsOnly s.data = true := by
    apply List.all_eq_true.mpr
    intro c hc
    simpa using h c hc
  have hgnt := gnt_eof s.data [] hws
  simp only [List.nil_append, List.length_nil, Nat.zero_add] at hgnt
  have hfuel : fuelFor s.data = 13 + 3 := by
    simp only [fuelFor]
    rw [pad_filter hws]
    rfl
  constructor
  · show ((Lexer.mk s.data 0).get_next_token).1 = .ok eofToken
    rw [hgnt]
  · simp only [interpret, interpretChars]
    rw [show Lexer.init s.data = Lexer.mk s.data 0 from rfl, hgnt]
    show (match runRule (fuelFor s.data) .expr
        { lexer := Lexer.mk s.data s.data.length, current_token := eofToken } with
      | none => none
      | some (r, _) => some r) = _
    rw [hfuel, runRule_eof 13 _ rfl]

/-- C10 witness: the all-whitespace input `" "` produces `ENDOFFILE` first
and fails with the syntax error expecting `INTEGER`. -/
theorem empty_input_syntax_error_witness :
    (∀ c ∈ " ".data, isspaceChar c = true) ∧
    ((Lexer.init " ".data).get_next_token).1 = .ok eofToken ∧
    interpret " " = some (.error (.wanted .INTEGER)) :=
  ⟨by decide, (empty_input_syntax_error " " (by decide)).1,
    (empty_input_syntax_error " " (by decide)).2⟩

end Calc5
